import Mathlib

/-!
Shallow embedding of the augmented Left-Leaning Red-Black tree
(order statistic tree) from `llrb/llrb.go`, together with proofs
checking the natural-language specification against it.

Go pointers `*Node` are modelled by the inductive `Node`, whose
constructor `Node.nil` plays the role of the nil pointer.  A Go
statement that would dereference a nil pointer, and a Go `panic`,
are both modelled by an `Option` result of `none`.
-/

set_option maxHeartbeats 1000000

namespace GoLLRB

/-- The `Item` interface together with the two sentinel values `nInf`
and `pInf` of `llrb.go` and the concrete integer item type the tests
instantiate it with. -/
inductive Item where
  | ninf : Item
  | pinf : Item
  | int (v : Int) : Item
deriving DecidableEq, Repr

/-- The `Less` method of the three `Item` implementations.
`nInf.Less` and `pInf.Less` are from `llrb.go` (they return `true`
resp. `false` unconditionally).  The real item type is not under
src/ (only the tests use it); Modelled from the spec: per spec
sections 3 and 9, a real item supports strict less-than against
another real item, the positive-infinity sentinel compares greater
than every real item, and the negative-infinity sentinel compares
less than every real item. -/
def Item.ItemLess : Item → Item → Bool
  | .ninf, _ => true
  | .pinf, _ => false
  | .int v, .int w => v < w
  | .int _, .ninf => false
  | .int _, .pinf => true

/-- `less` from `llrb.go`: dispatch that short-circuits the sentinels
in the first argument before calling the item's `Less` method. -/
def less (x y : Item) : Bool :=
  if x = Item.pinf then false
  else if x = Item.ninf then true
  else Item.ItemLess x y

/-- `Inf` from `llrb.go`: `panic("sign")` on a zero sign is modelled
by `none`. -/
def Inf (sign : Int) : Option Item :=
  if sign = 0 then none
  else if sign > 0 then some Item.pinf
  else some Item.ninf

/-- The `Node` struct of `llrb.go`; `Node.nil` models the nil
pointer.  Fields: the stored `Item`, the `Left` and `Right` children,
the `Black` color bit of the incoming link, and the `NDescendants`
subtree-size field. -/
inductive Node where
  | nil : Node
  | node (item : Item) (left right : Node) (black : Bool) (nDesc : Int) : Node
deriving DecidableEq, Repr

/-- Reading `h.Left`.  In the Go source this field is only read after
a nil check (or inside `isRed`, which checks for nil itself), so the
`nil` case is unreachable at every use site that we translate with
this accessor. -/
def Node.Left : Node → Node
  | .nil => .nil
  | .node _ l _ _ _ => l

/-- Reading `h.Right`; see `Node.Left` for the nil convention. -/
def Node.Right : Node → Node
  | .nil => .nil
  | .node _ _ r _ _ => r

/-- Assignment `h.Left = x` (receiver is never nil at use sites). -/
def Node.setLeft : Node → Node → Node
  | .nil, _ => .nil
  | .node i _ r b n, l => .node i l r b n

/-- Assignment `h.Right = x` (receiver is never nil at use sites). -/
def Node.setRight : Node → Node → Node
  | .nil, _ => .nil
  | .node i l _ b n, r => .node i l r b n

/-- Assignment `h.Black = true` (used for the root after mutations;
the receiver is non-nil at every use site, either by an explicit Go
nil check or because insertion always produces a node). -/
def Node.setBlack : Node → Node
  | .nil => .nil
  | .node i l r _ n => .node i l r true n

/-- `isRed` from `llrb.go`: nil links are black. -/
def isRed : Node → Bool
  | .nil => false
  | .node _ _ _ b _ => !b

/-- `size` from `llrb.go`: the stored `NDescendants` field, `0` for
nil. -/
def size : Node → Int
  | .nil => 0
  | .node _ _ _ _ n => n

/-- `newNode` from `llrb.go`: a fresh red leaf with `NDescendants`
set to `1`. -/
def newNode (item : Item) : Node :=
  .node item .nil .nil false 1

/-- The actual number of nodes in a subtree (not the stored
`NDescendants` field); used to state size consistency and to justify
termination of the deletion routines. -/
def Node.realSize : Node → Nat
  | .nil => 0
  | .node _ l r _ _ => l.realSize + r.realSize + 1

/-- In-order list of the items stored in a subtree. -/
def Node.items : Node → List Item
  | .nil => []
  | .node i l r _ _ => l.items ++ i :: r.items

/-- `rotateLeft` from `llrb.go`.  The source reads
`size(h.Right.Left)` and then `x.Black` before the red-link check, so
a nil `h` or a nil `h.Right` is a nil dereference (`none`), and a
black `h.Right` is the `panic("rotating a black link")` (`none`). -/
def rotateLeft : Node → Option Node
  | .nil => none
  | .node i l r b n =>
    match r with
    | .nil => none
    | .node xi xl xr xb _ =>
      if xb then none
      else
        -- parentSize = n, leftChildSize = size l,
        -- rightChildL1LeftChildL2Size = size xl
        some (.node xi (.node i l xl false (size l + size xl + 1)) xr b n)

/-- `rotateRight` from `llrb.go`.  Note that the source computes the
demoted node's size as `rightChildSize + leftChildL1rightChildL2Size`
without the `+ 1` that `rotateLeft` has. -/
def rotateRight : Node → Option Node
  | .nil => none
  | .node i l r b n =>
    match l with
    | .nil => none
    | .node xi xl xr xb _ =>
      if xb then none
      else
        -- parentSize = n, rightChildSize = size r,
        -- leftChildL1rightChildL2Size = size xr
        some (.node xi xl (.node i xr r false (size r + size xr)) b n)

/-- `flip` from `llrb.go`: toggles the color of the node and of both
children; dereferences both children, so a missing child is `none`. -/
def flip : Node → Option Node
  | .node i (.node li ll lr lb ln) (.node ri rl rr rb rn) b n =>
    some (.node i (.node li ll lr (!lb) ln) (.node ri rl rr (!rb) rn) (!b) n)
  | _ => none

/-- `moveRedLeft` from `llrb.go`. -/
def moveRedLeft (h : Node) : Option Node :=
  match flip h with
  | none => none
  | some h1 =>
    if isRed h1.Right.Left then
      match rotateRight h1.Right with
      | none => none
      | some r' =>
        match rotateLeft (h1.setRight r') with
        | none => none
        | some h2 => flip h2
    else
      some h1

/-- `moveRedRight` from `llrb.go`. -/
def moveRedRight (h : Node) : Option Node :=
  match flip h with
  | none => none
  | some h1 =>
    if isRed h1.Left.Left then
      match rotateRight h1 with
      | none => none
      | some h2 => flip h2
    else
      some h1

/-- `walkDownRot23` from `llrb.go`: the identity. -/
def walkDownRot23 (h : Node) : Node := h

/-- `walkUpRot23` from `llrb.go`.  The source dereferences `h`
via `h.Right`, so a nil argument is `none` (callers never pass
nil). -/
def walkUpRot23 : Node → Option Node
  | .nil => none
  | h =>
    match (if isRed h.Right && !isRed h.Left then rotateLeft h else some h) with
    | none => none
    | some h1 =>
      match (if isRed h1.Left && isRed h1.Left.Left then rotateRight h1 else some h1) with
      | none => none
      | some h2 =>
        if isRed h2.Left && isRed h2.Right then flip h2 else some h2

/-- `fixUp` from `llrb.go`; as with `walkUpRot23`, a nil argument
would dereference nil. -/
def fixUp : Node → Option Node
  | .nil => none
  | h =>
    match (if isRed h.Right then rotateLeft h else some h) with
    | none => none
    | some h1 =>
      match (if isRed h1.Left && isRed h1.Left.Left then rotateRight h1 else some h1) with
      | none => none
      | some h2 =>
        if isRed h2.Left && isRed h2.Right then flip h2 else some h2

/-- The `LLRB` struct of `llrb.go`: a running element count and the
root node. -/
structure LLRB where
  count : Int
  root : Node
deriving DecidableEq, Repr

/-- `New` from `llrb.go`: the zero value. -/
def New : LLRB := ⟨0, .nil⟩

/-- `Len` from `llrb.go`. -/
def LLRB.Len (t : LLRB) : Int := t.count

/-- The search loop of `Get` from `llrb.go`. -/
def getNode : Node → Item → Option Item
  | .nil, _ => none
  | .node i l r _ _, key =>
    if less key i then getNode l key
    else if less i key then getNode r key
    else some i

/-- `Get` from `llrb.go` (a Go nil result is `none`). -/
def LLRB.Get (t : LLRB) (key : Item) : Option Item :=
  getNode t.root key

/-- `Has` from `llrb.go`: `t.Get(key) != nil`. -/
def LLRB.Has (t : LLRB) (key : Item) : Bool :=
  (t.Get key).isSome

/-- The descent loop of `Min` from `llrb.go`. -/
def minNode : Node → Option Item
  | .nil => none
  | .node i l _ _ _ =>
    match l with
    | .nil => some i
    | _ => minNode l

/-- `Min` from `llrb.go`. -/
def LLRB.Min (t : LLRB) : Option Item :=
  minNode t.root

/-- The descent loop of `Max` from `llrb.go`. -/
def maxNode : Node → Option Item
  | .nil => none
  | .node i _ r _ _ =>
    match r with
    | .nil => some i
    | _ => maxNode r

/-- `Max` from `llrb.go`. -/
def LLRB.Max (t : LLRB) : Option Item :=
  maxNode t.root

/-- The recursive helper `replaceOrInsert` of `llrb.go`.  The
source first sets `h = walkDownRot23(h)`; for the 2-3 algorithm
`walkDownRot23` is the identity, so the comparisons below read the
fields of the unchanged node. -/
def replaceOrInsert : Node → Item → Option (Node × Option Item)
  | .nil, item => some (newNode item, none)
  | .node i l r b n, item =>
    if less item i then
      match replaceOrInsert l item with
      | none => none
      | some (l', replaced) =>
        match walkUpRot23 (.node i l' r b n) with
        | none => none
        | some h' => some (h', replaced)
    else if less i item then
      match replaceOrInsert r item with
      | none => none
      | some (r', replaced) =>
        match walkUpRot23 (.node i l r' b n) with
        | none => none
        | some h' => some (h', replaced)
    else
      -- replaced, h.Item = h.Item, item
      match walkUpRot23 (.node item l r b n) with
      | none => none
      | some h' => some (h', some i)

/-- `ReplaceOrInsert` from `llrb.go`.  The argument is an
`Option Item` because Go callers may pass a nil interface value; the
`panic("inserting nil item")` happens before any mutation, so that
case returns the unchanged tree paired with `none` (the panic).  On
success the result is the new tree paired with `some replaced`. -/
def LLRB.ReplaceOrInsert (t : LLRB) (item : Option Item) :
    LLRB × Option (Option Item) :=
  match item with
  | none => (t, none)
  | some it =>
    match replaceOrInsert t.root it with
    | none => (t, none)
    | some (root', replaced) =>
      -- t.root.Black = true; if replaced == nil { t.count++ }
      ⟨⟨if replaced = none then t.count + 1 else t.count, root'.setBlack⟩,
        some replaced⟩

/-- The recursive helper `insertNoReplace` of `llrb.go`
(`walkDownRot23` is again the identity; `h.NDescendants += 1` happens
before the descent). -/
def insertNoReplace : Node → Item → Option Node
  | .nil, item => some (newNode item)
  | .node i l r b n, item =>
    if less item i then
      match insertNoReplace l item with
      | none => none
      | some l' => walkUpRot23 (.node i l' r b (n + 1))
    else
      match insertNoReplace r item with
      | none => none
      | some r' => walkUpRot23 (.node i l r' b (n + 1))

/-- `InsertNoReplace` from `llrb.go`; nil-item handling as in
`LLRB.ReplaceOrInsert`.  The count always increments on success. -/
def LLRB.InsertNoReplace (t : LLRB) (item : Option Item) :
    LLRB × Option Unit :=
  match item with
  | none => (t, none)
  | some it =>
    match insertNoReplace t.root it with
    | none => (t, none)
    | some root' => (⟨t.count + 1, root'.setBlack⟩, some ())

/-! Size-preservation facts for the balancing primitives; these
justify termination of the deletion routines below. -/

theorem rotateLeft_realSize {h h' : Node} (e : rotateLeft h = some h') :
    h'.realSize = h.realSize := by
  cases h with
  | nil => simp [rotateLeft] at e
  | node i l r b n =>
    cases r with
    | nil => simp [rotateLeft] at e
    | node xi xl xr xb xn =>
      by_cases hb : xb
      · simp [rotateLeft, hb] at e
      · simp [rotateLeft, hb] at e
        simp [← e, Node.realSize]
        omega

theorem rotateRight_realSize {h h' : Node} (e : rotateRight h = some h') :
    h'.realSize = h.realSize := by
  cases h with
  | nil => simp [rotateRight] at e
  | node i l r b n =>
    cases l with
    | nil => simp [rotateRight] at e
    | node xi xl xr xb xn =>
      by_cases hb : xb
      · simp [rotateRight, hb] at e
      · simp [rotateRight, hb] at e
        simp [← e, Node.realSize]
        omega

theorem flip_realSize {h h' : Node} (e : flip h = some h') :
    h'.realSize = h.realSize := by
  cases h with
  | nil => simp [flip] at e
  | node i l r b n =>
    cases l with
    | nil => simp [flip] at e
    | node li ll lr lb ln =>
      cases r with
      | nil => simp [flip] at e
      | node ri rl rr rb rn =>
        simp [flip] at e
        simp [← e, Node.realSize]

theorem moveRedLeft_realSize {h h' : Node} (e : moveRedLeft h = some h') :
    h'.realSize = h.realSize := by
  unfold moveRedLeft at e
  cases e1 : flip h with
  | none => simp only [e1] at e; exact absurd e (by simp)
  | some h1 =>
    simp only [e1] at e
    by_cases hr : isRed h1.Right.Left
    · simp only [hr, if_true] at e
      cases e2 : rotateRight h1.Right with
      | none => simp only [e2] at e; exact absurd e (by simp)
      | some r' =>
        simp only [e2] at e
        cases e3 : rotateLeft (h1.setRight r') with
        | none => simp only [e3] at e; exact absurd e (by simp)
        | some h2 =>
          simp only [e3] at e
          have s1 := flip_realSize e1
          have s2 := rotateRight_realSize e2
          have s3 := rotateLeft_realSize e3
          have s4 := flip_realSize e
          have hset : (h1.setRight r').realSize + h1.Right.realSize =
              h1.realSize + r'.realSize ∨ h1 = .nil := by
            cases h1 with
            | nil => exact Or.inr rfl
            | node i l r b n =>
              left
              simp [Node.setRight, Node.Right, Node.realSize]
              omega
          rcases hset with hset | hnil
          · omega
          · subst hnil
            simp [Node.setRight, rotateLeft] at e3
    · simp only [hr, if_false] at e
      have : h1 = h' := by simpa using e
      subst this
      exact flip_realSize e1

theorem moveRedRight_realSize {h h' : Node} (e : moveRedRight h = some h') :
    h'.realSize = h.realSize := by
  unfold moveRedRight at e
  cases e1 : flip h with
  | none => simp only [e1] at e; exact absurd e (by simp)
  | some h1 =>
    simp only [e1] at e
    by_cases hr : isRed h1.Left.Left
    · simp only [hr, if_true] at e
      cases e2 : rotateRight h1 with
      | none => simp only [e2] at e; exact absurd e (by simp)
      | some h2 =>
        simp only [e2] at e
        have s1 := flip_realSize e1
        have s2 := rotateRight_realSize e2
        have s3 := flip_realSize e
        omega
    · simp only [hr, if_false] at e
      have : h1 = h' := by simpa using e
      subst this
      exact flip_realSize e1

theorem realSize_Left_lt_of_eq {h1 g : Node} (hs : h1.realSize = g.realSize)
    (hg : g ≠ .nil) : h1.Left.realSize < g.realSize := by
  have hg1 : 1 ≤ g.realSize := by
    cases g with
    | nil => exact absurd rfl hg
    | node i l r b n => simp [Node.realSize]
  cases h1 with
  | nil => simp [Node.Left, Node.realSize]; omega
  | node i l r b n =>
    simp only [Node.Left]
    simp only [Node.realSize] at hs
    omega

theorem realSize_Right_lt_of_eq {h1 g : Node} (hs : h1.realSize = g.realSize)
    (hg : g ≠ .nil) : h1.Right.realSize < g.realSize := by
  have hg1 : 1 ≤ g.realSize := by
    cases g with
    | nil => exact absurd rfl hg
    | node i l r b n => simp [Node.realSize]
  cases h1 with
  | nil => simp [Node.Right, Node.realSize]; omega
  | node i l r b n =>
    simp only [Node.Right]
    simp only [Node.realSize] at hs
    omega

theorem realSize_right_field_lt {i2 : Item} {l2 r2 : Node} {b2 : Bool}
    {n2 : Int} {g : Node}
    (hs : (Node.node i2 l2 r2 b2 n2).realSize = g.realSize) :
    r2.realSize < g.realSize := by
  simp only [Node.realSize] at hs
  omega

/-- `deleteMin` (the package-level recursive helper) from `llrb.go`. -/
def deleteMin : Node → Option (Node × Option Item)
  | .nil => some (.nil, none)
  | .node i l r b n =>
    if l = Node.nil then some (.nil, some i)
    else
      match hm : (if !isRed l && !isRed l.Left then
          moveRedLeft (.node i l r b n) else some (.node i l r b n)) with
      | none => none
      | some h1 =>
        match deleteMin h1.Left with
        | none => none
        | some (l', del) =>
          match fixUp (h1.setLeft l') with
          | none => none
          | some h2 => some (h2, del)
termination_by h => h.realSize
decreasing_by
  split at hm
  · exact realSize_Left_lt_of_eq (moveRedLeft_realSize hm) (by simp)
  · cases hm
    exact realSize_Left_lt_of_eq rfl (by simp)

/-- `DeleteMin` from `llrb.go`. -/
def LLRB.DeleteMin (t : LLRB) : LLRB × Option (Option Item) :=
  match deleteMin t.root with
  | none => (t, none)
  | some (root', deleted) =>
    -- if t.root != nil { t.root.Black = true }
    -- if deleted != nil { t.count-- }
    ⟨⟨if deleted = none then t.count else t.count - 1,
      if root' = .nil then root' else root'.setBlack⟩, some deleted⟩

/-- `deleteMax` (the package-level recursive helper) from `llrb.go`. -/
def deleteMax : Node → Option (Node × Option Item)
  | .nil => some (.nil, none)
  | .node i l r b n =>
    match hr : (if isRed l then rotateRight (.node i l r b n)
        else some (.node i l r b n)) with
    | none => none
    | some Node.nil => none  -- h.Right would dereference nil (unreachable)
    | some (.node i1 l1 r1 b1 n1) =>
      if r1 = Node.nil then some (.nil, some i1)
      else
        match hm : (if !isRed r1 && !isRed r1.Left then
            moveRedRight (.node i1 l1 r1 b1 n1)
            else some (.node i1 l1 r1 b1 n1)) with
        | none => none
        | some h2 =>
          match deleteMax h2.Right with
          | none => none
          | some (r', del) =>
            match fixUp (h2.setRight r') with
            | none => none
            | some h3 => some (h3, del)
termination_by h => h.realSize
decreasing_by
  split at hr
  · split at hm
    · exact realSize_Right_lt_of_eq
        ((moveRedRight_realSize hm).trans (rotateRight_realSize hr)) (by simp)
    · cases hm
      exact realSize_Right_lt_of_eq (rotateRight_realSize hr) (by simp)
  · cases hr
    split at hm
    · exact realSize_Right_lt_of_eq (moveRedRight_realSize hm) (by simp)
    · cases hm
      exact realSize_Right_lt_of_eq rfl (by simp)

/-- `DeleteMax` from `llrb.go`. -/
def LLRB.DeleteMax (t : LLRB) : LLRB × Option (Option Item) :=
  match deleteMax t.root with
  | none => (t, none)
  | some (root', deleted) =>
    ⟨⟨if deleted = none then t.count else t.count - 1,
      if root' = .nil then root' else root'.setBlack⟩, some deleted⟩

/-- The recursive helper `delete` of `llrb.go`. -/
def delete : Node → Item → Option (Node × Option Item)
  | .nil, _ => some (.nil, none)
  | .node i l r b n, item =>
    if less item i then
      if l = Node.nil then some (.node i l r b n, none)  -- item not present
      else
        match hm : (if !isRed l && !isRed l.Left then
            moveRedLeft (.node i l r b n) else some (.node i l r b n)) with
        | none => none
        | some h1 =>
          match delete h1.Left item with
          | none => none
          | some (l', del) =>
            match fixUp (h1.setLeft l') with
            | none => none
            | some h2 => some (h2, del)
    else
      match hr : (if isRed l then rotateRight (.node i l r b n)
          else some (.node i l r b n)) with
      | none => none
      | some Node.nil => none  -- h.Item would dereference nil (unreachable)
      | some (.node i1 l1 r1 b1 n1) =>
        if !less i1 item && r1 = Node.nil then
          some (.nil, some i1)
        else
          match hm : (if !(r1 = Node.nil) && !isRed r1 && !isRed r1.Left then
              moveRedRight (.node i1 l1 r1 b1 n1)
              else some (.node i1 l1 r1 b1 n1)) with
          | none => none
          | some Node.nil => none  -- h.Item would dereference nil (unreachable)
          | some (.node i2 l2 r2 b2 n2) =>
            if !less i2 item then
              match deleteMin r2 with
              | none => none
              | some (r', subDeleted) =>
                match subDeleted with
                | none => none  -- panic("logic")
                | some sd =>
                  -- deleted, h.Item = h.Item, subDeleted
                  match fixUp (.node sd l2 r' b2 n2) with
                  | none => none
                  | some h3 => some (h3, some i2)
            else
              match delete r2 item with
              | none => none
              | some (r', del) =>
                match fixUp (.node i2 l2 r' b2 n2) with
                | none => none
                | some h3 => some (h3, del)
termination_by h _ => h.realSize
decreasing_by
  · split at hm
    · exact realSize_Left_lt_of_eq (moveRedLeft_realSize hm) (by simp)
    · cases hm
      exact realSize_Left_lt_of_eq rfl (by simp)
  · split at hr
    · split at hm
      · exact realSize_right_field_lt
          ((moveRedRight_realSize hm).trans (rotateRight_realSize hr))
      · cases hm
        exact realSize_right_field_lt (rotateRight_realSize hr)
    · cases hr
      split at hm
      · exact realSize_right_field_lt (moveRedRight_realSize hm)
      · cases hm
        exact realSize_right_field_lt rfl

/-- `Delete` from `llrb.go`. -/
def LLRB.Delete (t : LLRB) (key : Item) : LLRB × Option (Option Item) :=
  match delete t.root key with
  | none => (t, none)
  | some (root', deleted) =>
    ⟨⟨if deleted = none then t.count else t.count - 1,
      if root' = .nil then root' else root'.setBlack⟩, some deleted⟩

/-- The recursive helper `getByRank` of `llrb.go`; returns the node
with rank `r` inside the subtree (`none` for the Go nil result). -/
def getByRank : Node → Int → Option Node
  | .nil, _ => none
  | .node i l r b n, rk =>
    -- hRank = size(h.Left) + 1
    if rk = size l + 1 then some (.node i l r b n)
    else if rk < size l + 1 then
      if l = Node.nil then none  -- never expected to reach this branch
      else getByRank l rk
    else
      if r = Node.nil then none  -- never expected to reach this branch
      else getByRank r (rk - (size l + 1))

/-- Reading `node.Item` from a `getByRank` result (non-nil by
construction of `getByRank`). -/
def Node.ItemOf : Node → Option Item
  | .nil => none
  | .node i _ _ _ _ => some i

/-- `GetByRank` from `llrb.go`: falls back to `Min`/`Max` when the
recursive search returns nil. -/
def LLRB.GetByRank (t : LLRB) (r : Int) : Option Item :=
  match getByRank t.root r with
  | none => if r ≤ 0 then t.Min else t.Max
  | some nd => nd.ItemOf

/-- The `get` method of `llrb.go` (used by `GetRankOf`): the path
from the root to the node of equal order, with a final `Node.nil`
entry when the key is absent. -/
def getPath : Node → Item → List Node
  | .nil, _ => [.nil]
  | .node i l r b n, key =>
    if less key i then .node i l r b n :: getPath l key
    else if less i key then .node i l r b n :: getPath r key
    else [.node i l r b n]

/-- The correction loop of `getRankOf` in `llrb.go`: for every
consecutive pair `(path[i-1], path[i])` with both entries non-nil and
`path[i] == path[i-1].Right`, add `size(path[i-1].Left) + 1`.  The Go
loop runs from the end of the path downward; the sum is the same. -/
def pairSum : List Node → Int
  | p :: q :: rest =>
    (if q = Node.nil then 0
     else if p = Node.nil then 0
     else if q = p.Right then size p.Left + 1 else 0) + pairSum (q :: rest)
  | _ => 0

/-- The `getRankOf` method of `llrb.go` (taking the recorded search
path).  Pointer equality on path entries is modelled by structural
equality, which agrees with it on every tree whose nodes are
pairwise distinct (in particular on every tree with strictly ordered
items). -/
def getRankOf (path : List Node) : Int × Option Item :=
  match path.getLast? with
  | none => (0, none)  -- len(path) < 1
  | some found =>
    if found = Node.nil then
      -- rank of nearest parent node for a non-existent item
      match path.dropLast.getLast? with
      | none => (0, none)  -- len(path) < 2
      | some parent => (size parent.Left + 1 + pairSum path, none)
    else
      (size found.Left + 1 + pairSum path, found.ItemOf)

/-- `GetRankOf` from `llrb.go`.  (The Go version returns the found
node as an `Item` — `*Node` embeds `Item` — so the second component
is the found node's stored item, or `none` when no node matched.) -/
def LLRB.GetRankOf (t : LLRB) (key : Item) : Int × Option Item :=
  getRankOf (getPath t.root key)

/-! Concrete tree builders (used by the tests and by the concrete
claims below), and the data-model invariants of spec section 3. -/

/-- Fold `InsertNoReplace` over a list of integers, starting from the
empty tree (`New`); this is how the repository's tests build trees. -/
def insList (vs : List Int) : LLRB :=
  vs.foldl (fun t v => (t.InsertNoReplace (some (.int v))).1) New

/-- Fold `ReplaceOrInsert` over a list of integers, starting from the
empty tree. -/
def roiList (vs : List Int) : LLRB :=
  vs.foldl (fun t v => (t.ReplaceOrInsert (some (.int v))).1) New

/-- Erase the `NDescendants` fields, keeping items, shape and colors;
used to state that a tree changed beyond its size fields. -/
def stripSize : Node → Node
  | .nil => .nil
  | .node i l r b _ => .node i (stripSize l) (stripSize r) b 0

/-- Whether a real item. -/
def Item.isInt : Item → Bool
  | .int _ => true
  | _ => false

/-- The size-consistency invariant of spec section 3:
`size(node) = 1 + size(node.left) + size(node.right)` at every node,
where `size` reads the stored `NDescendants` field. -/
def sizeOk : Node → Bool
  | .nil => true
  | .node _ l r _ n => decide (n = size l + size r + 1) && sizeOk l && sizeOk r

/-- The binary-search-order invariant of spec section 3, with respect
to the `less` comparison of `llrb.go`. -/
def bst : Node → Bool
  | .nil => true
  | .node i l r _ _ =>
    bst l && bst r && l.items.all (fun x => less x i) &&
      r.items.all (fun x => less i x)

/-- Every stored item is a real (integer) item; sentinels are never
stored (spec section 3). -/
def allInt (t : Node) : Bool :=
  t.items.all Item.isInt

/-- The number of stored items strictly below the integer `v`. -/
def countLess (t : Node) (v : Int) : Nat :=
  t.items.countP (fun x => less x (Item.int v))

/-! Basic facts about the comparison and the item lists. -/

@[simp] theorem less_int_int (v w : Int) :
    less (Item.int v) (Item.int w) = decide (v < w) := by
  simp [less, Item.ItemLess]

theorem less_trans {x y z : Item} (h1 : less x y = true)
    (h2 : less y z = true) : less x z = true := by
  cases x with
  | ninf => simp [less]
  | pinf => simp [less] at h1
  | int v =>
    cases y with
    | ninf => simp [less, Item.ItemLess] at h1
    | pinf => simp [less] at h2
    | int w =>
      cases z with
      | ninf => simp [less, Item.ItemLess] at h2
      | pinf => simp [less, Item.ItemLess]
      | int u =>
        simp at h1 h2 ⊢
        omega

theorem int_eq_of_not_less {v w : Int}
    (h1 : ¬ less (Item.int v) (Item.int w) = true)
    (h2 : ¬ less (Item.int w) (Item.int v) = true) :
    v = w := by
  simp at h1 h2
  omega

theorem items_length_realSize (t : Node) :
    t.items.length = t.realSize := by
  induction t with
  | nil => simp [Node.items, Node.realSize]
  | node i l r b n ihl ihr =>
    simp [Node.items, Node.realSize, ihl, ihr]
    omega

theorem sizeOk_size_eq (t : Node) (h : sizeOk t = true) :
    size t = (t.realSize : Int) := by
  induction t with
  | nil => simp [size, Node.realSize]
  | node i l r b n ihl ihr =>
    simp only [sizeOk, Bool.and_eq_true, decide_eq_true_eq] at h
    obtain ⟨⟨hn, hl⟩, hr⟩ := h
    rw [show size (Node.node i l r b n) = n from rfl, hn, ihl hl, ihr hr]
    simp [Node.realSize]

/-! Decomposition lemmas for the Boolean invariants. -/

theorem bst_node {i : Item} {l r : Node} {b : Bool} {n : Int} :
    bst (.node i l r b n) = true ↔
      bst l = true ∧ bst r = true ∧
      (∀ x ∈ l.items, less x i = true) ∧
      (∀ x ∈ r.items, less i x = true) := by
  simp [bst, List.all_eq_true]
  tauto

theorem allInt_node {i : Item} {l r : Node} {b : Bool} {n : Int} :
    allInt (.node i l r b n) = true ↔
      Item.isInt i = true ∧ allInt l = true ∧ allInt r = true := by
  simp [allInt, Node.items, List.all_eq_true]
  tauto

theorem isInt_int {x : Item} (h : Item.isInt x = true) : ∃ v, x = Item.int v := by
  cases x with
  | ninf => simp [Item.isInt] at h
  | pinf => simp [Item.isInt] at h
  | int v => exact ⟨v, rfl⟩

/-! Preservation of the in-order item list and of the BST invariant
by the balancing primitives. -/

theorem rotateLeft_items {h h' : Node} (e : rotateLeft h = some h') :
    h'.items = h.items := by
  cases h with
  | nil => simp [rotateLeft] at e
  | node a l r c n =>
    cases r with
    | nil => simp [rotateLeft] at e
    | node bi rl rr rb m =>
      by_cases hbb : rb
      · simp [rotateLeft, hbb] at e
      · simp [rotateLeft, hbb] at e
        simp [← e, Node.items]

theorem rotateRight_items {h h' : Node} (e : rotateRight h = some h') :
    h'.items = h.items := by
  cases h with
  | nil => simp [rotateRight] at e
  | node a l r c n =>
    cases l with
    | nil => simp [rotateRight] at e
    | node bi ll lr lb m =>
      by_cases hbb : lb
      · simp [rotateRight, hbb] at e
      · simp [rotateRight, hbb] at e
        simp [← e, Node.items]

theorem flip_items {h h' : Node} (e : flip h = some h') :
    h'.items = h.items := by
  cases h with
  | nil => simp [flip] at e
  | node i l r b n =>
    cases l with
    | nil => simp [flip] at e
    | node li ll lr lb ln =>
      cases r with
      | nil => simp [flip] at e
      | node ri rl rr rb rn =>
        simp [flip] at e
        simp [← e, Node.items]

theorem rotateLeft_bst {h h' : Node} (e : rotateLeft h = some h')
    (hb : bst h = true) : bst h' = true := by
  cases h with
  | nil => simp [rotateLeft] at e
  | node a l r c n =>
    cases r with
    | nil => simp [rotateLeft] at e
    | node bi rl rr rb m =>
      by_cases hbb : rb
      · simp [rotateLeft, hbb] at e
      · simp [rotateLeft, hbb] at e
        rw [bst_node] at hb
        obtain ⟨hbl, hbr, hlt, hgt⟩ := hb
        rw [bst_node] at hbr
        obtain ⟨hbrl, hbrr, hrlt, hrgt⟩ := hbr
        have hab : less a bi = true := by
          apply hgt
          simp [Node.items]
        rw [← e, bst_node]
        refine ⟨?_, hbrr, ?_, hrgt⟩
        · rw [bst_node]
          refine ⟨hbl, hbrl, hlt, ?_⟩
          intro x hx
          apply hgt
          simp [Node.items]
          tauto
        · intro x hx
          simp [Node.items] at hx
          rcases hx with hx | hx | hx
          · exact less_trans (hlt x hx) hab
          · subst hx; exact hab
          · exact hrlt x hx

theorem rotateRight_bst {h h' : Node} (e : rotateRight h = some h')
    (hb : bst h = true) : bst h' = true := by
  cases h with
  | nil => simp [rotateRight] at e
  | node a l r c n =>
    cases l with
    | nil => simp [rotateRight] at e
    | node bi ll lr lb m =>
      by_cases hbb : lb
      · simp [rotateRight, hbb] at e
      · simp [rotateRight, hbb] at e
        rw [bst_node] at hb
        obtain ⟨hbl, hbr, hlt, hgt⟩ := hb
        rw [bst_node] at hbl
        obtain ⟨hbll, hblr, hllt, hlgt⟩ := hbl
        have hba : less bi a = true := by
          apply hlt
          simp [Node.items]
        rw [← e, bst_node]
        refine ⟨hbll, ?_, hllt, ?_⟩
        · rw [bst_node]
          refine ⟨hblr, hbr, ?_, hgt⟩
          intro x hx
          apply hlt
          simp [Node.items]
          tauto
        · intro x hx
          simp [Node.items] at hx
          rcases hx with hx | hx | hx
          · apply hlgt x hx
          · subst hx; exact hba
          · exact less_trans hba (hgt x hx)

theorem flip_bst {h h' : Node} (e : flip h = some h')
    (hb : bst h = true) : bst h' = true := by
  cases h with
  | nil => simp [flip] at e
  | node i l r b n =>
    cases l with
    | nil => simp [flip] at e
    | node li ll lr lb ln =>
      cases r with
      | nil => simp [flip] at e
      | node ri rl rr rb rn =>
        simp [flip] at e
        rw [bst_node] at hb
        rw [← e, bst_node]
        simpa [bst_node, Node.items] using hb

theorem allInt_congr {h h' : Node} (hitems : h'.items = h.items) :
    allInt h' = allInt h := by
  simp [allInt, hitems]

theorem rotateLeft_some {h : Node} (hr : isRed h.Right = true) :
    ∃ x, rotateLeft h = some x := by
  cases h with
  | nil => simp [Node.Right, isRed] at hr
  | node a l r c n =>
    cases r with
    | nil => simp [Node.Right, isRed] at hr
    | node bi rl rr rb m =>
      simp [Node.Right, isRed] at hr
      exact ⟨Node.node bi (Node.node a l rl false (size l + size rl + 1)) rr c n,
        by simp [rotateLeft, hr]⟩

theorem rotateRight_some {h : Node} (hl : isRed h.Left = true) :
    ∃ x, rotateRight h = some x := by
  cases h with
  | nil => simp [Node.Left, isRed] at hl
  | node a l r c n =>
    cases l with
    | nil => simp [Node.Left, isRed] at hl
    | node bi ll lr lb m =>
      simp [Node.Left, isRed] at hl
      exact ⟨Node.node bi ll (Node.node a lr r false (size r + size lr)) c n,
        by simp [rotateRight, hl]⟩

theorem flip_some {h : Node} (hl : isRed h.Left = true)
    (hr : isRed h.Right = true) : ∃ x, flip h = some x := by
  cases h with
  | nil => simp [Node.Left, isRed] at hl
  | node a l r c n =>
    cases l with
    | nil => simp [Node.Left, isRed] at hl
    | node li ll lr lb ln =>
      cases r with
      | nil => simp [Node.Right, isRed] at hr
      | node ri rl rr rb rn =>
        exact ⟨Node.node a (Node.node li ll lr (!lb) ln)
          (Node.node ri rl rr (!rb) rn) (!c) n, by simp [flip]⟩

/-! Structural helpers and preservation facts for `moveRedLeft`,
`moveRedRight`. -/

theorem bst_Left {h : Node} (hb : bst h = true) : bst h.Left = true := by
  cases h with
  | nil => simpa [Node.Left] using hb
  | node i l r b n =>
    rw [bst_node] at hb
    simpa [Node.Left] using hb.1

theorem bst_Right {h : Node} (hb : bst h = true) : bst h.Right = true := by
  cases h with
  | nil => simpa [Node.Right] using hb
  | node i l r b n =>
    rw [bst_node] at hb
    simpa [Node.Right] using hb.2.1

theorem allInt_Left {h : Node} (hi : allInt h = true) : allInt h.Left = true := by
  cases h with
  | nil => simpa [Node.Left] using hi
  | node i l r b n =>
    rw [allInt_node] at hi
    simpa [Node.Left] using hi.2.1

theorem allInt_Right {h : Node} (hi : allInt h = true) : allInt h.Right = true := by
  cases h with
  | nil => simpa [Node.Right] using hi
  | node i l r b n =>
    rw [allInt_node] at hi
    simpa [Node.Right] using hi.2.2

theorem items_Left_subset {h : Node} {x : Item} (hx : x ∈ h.Left.items) :
    x ∈ h.items := by
  cases h with
  | nil => simpa [Node.Left] using hx
  | node i l r b n =>
    simp [Node.Left] at hx
    simp [Node.items]
    tauto

theorem items_Right_subset {h : Node} {x : Item} (hx : x ∈ h.Right.items) :
    x ∈ h.items := by
  cases h with
  | nil => simpa [Node.Right] using hx
  | node i l r b n =>
    simp [Node.Right] at hx
    simp [Node.items]
    tauto

theorem moveRedLeft_items {h h' : Node} (e : moveRedLeft h = some h') :
    h'.items = h.items := by
  unfold moveRedLeft at e
  cases e1 : flip h with
  | none => simp only [e1] at e; exact absurd e (by simp)
  | some h1 =>
    simp only [e1] at e
    by_cases hr : isRed h1.Right.Left
    · simp only [hr, if_true] at e
      cases e2 : rotateRight h1.Right with
      | none => simp only [e2] at e; exact absurd e (by simp)
      | some r' =>
        simp only [e2] at e
        cases e3 : rotateLeft (h1.setRight r') with
        | none => simp only [e3] at e; exact absurd e (by simp)
        | some h2 =>
          simp only [e3] at e
          have i1 := flip_items e1
          have i2 := rotateRight_items e2
          have i3 := rotateLeft_items e3
          have i4 := flip_items e
          have hset : (h1.setRight r').items = h1.items := by
            cases h1 with
            | nil => simp [Node.setRight]
            | node a l rr b n =>
              simp only [Node.Right] at i2
              simp [Node.setRight, Node.items, i2]
          rw [i4, i3, hset, i1]
    · simp only [hr, if_false] at e
      have : h1 = h' := by simpa using e
      subst this
      exact flip_items e1

theorem bst_replaceRight {a : Item} {l r r' : Node} {b b2 : Bool} {n n2 : Int}
    (hb : bst (.node a l r b n) = true) (hbr : bst r' = true)
    (hir : r'.items = r.items) : bst (Node.node a l r' b2 n2) = true := by
  rw [bst_node] at hb ⊢
  obtain ⟨h1, h2, h3, h4⟩ := hb
  exact ⟨h1, hbr, h3, fun x hx => h4 x (hir ▸ hx)⟩

theorem moveRedLeft_bst {h h' : Node} (e : moveRedLeft h = some h')
    (hb : bst h = true) : bst h' = true := by
  unfold moveRedLeft at e
  cases e1 : flip h with
  | none => simp only [e1] at e; exact absurd e (by simp)
  | some h1 =>
    simp only [e1] at e
    have hb1 : bst h1 = true := flip_bst e1 hb
    by_cases hr : isRed h1.Right.Left
    · simp only [hr, if_true] at e
      cases e2 : rotateRight h1.Right with
      | none => simp only [e2] at e; exact absurd e (by simp)
      | some r' =>
        simp only [e2] at e
        cases e3 : rotateLeft (h1.setRight r') with
        | none => simp only [e3] at e; exact absurd e (by simp)
        | some h2 =>
          simp only [e3] at e
          have hbr' : bst r' = true := rotateRight_bst e2 (bst_Right hb1)
          have hbset : bst (h1.setRight r') = true := by
            cases h1 with
            | nil => simpa [Node.setRight] using hb1
            | node a l rr bb nn =>
              simp only [Node.Right] at e2
              exact bst_replaceRight hb1 hbr' (rotateRight_items e2)
          exact flip_bst e (rotateLeft_bst e3 hbset)
    · simp only [hr, if_false] at e
      have : h1 = h' := by simpa using e
      subst this
      exact hb1

theorem moveRedRight_items {h h' : Node} (e : moveRedRight h = some h') :
    h'.items = h.items := by
  unfold moveRedRight at e
  cases e1 : flip h with
  | none => simp only [e1] at e; exact absurd e (by simp)
  | some h1 =>
    simp only [e1] at e
    by_cases hr : isRed h1.Left.Left
    · simp only [hr, if_true] at e
      cases e2 : rotateRight h1 with
      | none => simp only [e2] at e; exact absurd e (by simp)
      | some h2 =>
        simp only [e2] at e
        rw [flip_items e, rotateRight_items e2, flip_items e1]
    · simp only [hr, if_false] at e
      have : h1 = h' := by simpa using e
      subst this
      exact flip_items e1

theorem moveRedRight_bst {h h' : Node} (e : moveRedRight h = some h')
    (hb : bst h = true) : bst h' = true := by
  unfold moveRedRight at e
  cases e1 : flip h with
  | none => simp only [e1] at e; exact absurd e (by simp)
  | some h1 =>
    simp only [e1] at e
    have hb1 : bst h1 = true := flip_bst e1 hb
    by_cases hr : isRed h1.Left.Left
    · simp only [hr, if_true] at e
      cases e2 : rotateRight h1 with
      | none => simp only [e2] at e; exact absurd e (by simp)
      | some h2 =>
        simp only [e2] at e
        exact flip_bst e (rotateRight_bst e2 hb1)
    · simp only [hr, if_false] at e
      have : h1 = h' := by simpa using e
      subst this
      exact hb1

/-- The root item of a `moveRedRight` result is the old root or an
item of the old left subtree. -/
theorem moveRedRight_root {a : Item} {l r : Node} {b : Bool} {n : Int}
    {h' : Node} (e : moveRedRight (.node a l r b n) = some h') :
    ∃ i' l' r' b' n', h' = .node i' l' r' b' n' ∧
      (i' = a ∨ i' ∈ l.items) := by
  unfold moveRedRight at e
  cases l with
  | nil => simp [flip] at e
  | node la ll lr lb ln =>
    cases r with
    | nil => simp [flip] at e
    | node ra rl rr rb rn =>
      simp only [flip] at e
      by_cases hr : isRed (Node.node a (Node.node la ll lr (!lb) ln)
          (Node.node ra rl rr (!rb) rn) (!b) n).Left.Left
      · rw [if_pos hr] at e
        simp only [Node.Left] at hr
        cases ll with
        | nil => simp [isRed] at hr
        | node ba bl br bb bn =>
          cases lb with
          | false => simp [rotateRight] at e
          | true =>
            rw [rotateRight.eq_def] at e
            simp only [Bool.not_true, Bool.false_eq_true, if_false] at e
            have hx := Option.some.inj e
            exact ⟨la, _, _, _, _, hx.symm, Or.inr (by simp [Node.items])⟩
      · rw [if_neg hr] at e
        have hx := Option.some.inj e
        exact ⟨a, _, _, _, _, hx.symm, Or.inl rfl⟩

/-! Totality and preservation of `walkUpRot23` (the rebalancing steps
are guarded by exactly the preconditions of the primitives they
call). -/

theorem step_rotateLeft (h : Node) :
    ∃ h1, (if isRed h.Right && !isRed h.Left then rotateLeft h
        else some h) = some h1 ∧ h1.items = h.items ∧
      (bst h = true → bst h1 = true) := by
  by_cases c : (isRed h.Right && !isRed h.Left) = true
  · rw [if_pos c]
    obtain ⟨x, hx⟩ := rotateLeft_some (Bool.and_elim_left c)
    exact ⟨x, hx, rotateLeft_items hx, rotateLeft_bst hx⟩
  · rw [if_neg c]
    exact ⟨h, rfl, rfl, id⟩

theorem step_rotateRight (h : Node) :
    ∃ h1, (if isRed h.Left && isRed h.Left.Left then rotateRight h
        else some h) = some h1 ∧ h1.items = h.items ∧
      (bst h = true → bst h1 = true) := by
  by_cases c : (isRed h.Left && isRed h.Left.Left) = true
  · rw [if_pos c]
    obtain ⟨x, hx⟩ := rotateRight_some (Bool.and_elim_left c)
    exact ⟨x, hx, rotateRight_items hx, rotateRight_bst hx⟩
  · rw [if_neg c]
    exact ⟨h, rfl, rfl, id⟩

theorem step_flip (h : Node) :
    ∃ h1, (if isRed h.Left && isRed h.Right then flip h
        else some h) = some h1 ∧ h1.items = h.items ∧
      (bst h = true → bst h1 = true) := by
  by_cases c : (isRed h.Left && isRed h.Right) = true
  · rw [if_pos c]
    obtain ⟨x, hx⟩ := flip_some (Bool.and_elim_left c) (Bool.and_elim_right c)
    exact ⟨x, hx, flip_items hx, flip_bst hx⟩
  · rw [if_neg c]
    exact ⟨h, rfl, rfl, id⟩

theorem walkUpRot23_spec {i : Item} {l r : Node} {b : Bool} {n : Int} :
    ∃ h', walkUpRot23 (.node i l r b n) = some h' ∧
      h'.items = (Node.node i l r b n).items ∧
      (bst (.node i l r b n) = true → bst h' = true) := by
  obtain ⟨h1, e1, i1, b1⟩ := step_rotateLeft (.node i l r b n)
  obtain ⟨h2, e2, i2, b2⟩ := step_rotateRight h1
  obtain ⟨h3, e3, i3, b3⟩ := step_flip h2
  refine ⟨h3, ?_, by rw [i3, i2, i1], fun hb => b3 (b2 (b1 hb))⟩
  rw [walkUpRot23.eq_def]
  simp only [e1, e2, e3]

/-! Correctness of the search loop, and the full specification of
`replaceOrInsert`. -/

theorem getNode_present {v : Int} : ∀ {t : Node}, bst t = true →
    allInt t = true → Item.int v ∈ t.items →
    getNode t (Item.int v) = some (Item.int v) := by
  intro t
  induction t with
  | nil => intro _ _ hmem; simp [Node.items] at hmem
  | node i l r b n ihl ihr =>
    intro hb hi hmem
    rw [bst_node] at hb
    rw [allInt_node] at hi
    obtain ⟨w, rfl⟩ := isInt_int hi.1
    simp only [Node.items, List.mem_append, List.mem_cons] at hmem
    rcases hmem with hm | hm | hm
    · have hlt : (v : Int) < w := by
        have := hb.2.2.1 _ hm
        simpa using this
      simp only [getNode, less_int_int, decide_eq_true_eq, if_pos hlt]
      exact ihl hb.1 hi.2.1 hm
    · have : v = w := by
        have := hm
        simp at this
        omega
      subst this
      simp [getNode]
    · have hgt : w < v := by
        have := hb.2.2.2 _ hm
        simpa using this
      simp only [getNode, less_int_int, decide_eq_true_eq]
      rw [if_neg (by omega), if_pos hgt]
      exact ihr hb.2.1 hi.2.2 hm

theorem getNode_absent {v : Int} : ∀ {t : Node}, bst t = true →
    allInt t = true → Item.int v ∉ t.items →
    getNode t (Item.int v) = none := by
  intro t
  induction t with
  | nil => intro _ _ _; simp [getNode]
  | node i l r b n ihl ihr =>
    intro hb hi habs
    rw [bst_node] at hb
    rw [allInt_node] at hi
    obtain ⟨w, rfl⟩ := isInt_int hi.1
    simp only [Node.items, List.mem_append, List.mem_cons] at habs
    push_neg at habs
    obtain ⟨habl, habi, habr⟩ := habs
    simp only [getNode, less_int_int, decide_eq_true_eq]
    by_cases hlt : v < w
    · rw [if_pos hlt]
      exact ihl hb.1 hi.2.1 habl
    · rw [if_neg hlt]
      by_cases hgt : w < v
      · rw [if_pos hgt]
        exact ihr hb.2.1 hi.2.2 habr
      · exact absurd (by simp; omega : Item.int v = Item.int w) habi

theorem setBlack_items (h : Node) : (h.setBlack).items = h.items := by
  cases h <;> simp [Node.setBlack, Node.items]

theorem setBlack_bst (h : Node) : bst h.setBlack = bst h := by
  cases h with
  | nil => rfl
  | node i l r b n => simp [Node.setBlack, bst]

theorem replaceOrInsert_spec {v : Int} : ∀ {h : Node}, bst h = true →
    allInt h = true →
    ∃ h', replaceOrInsert h (Item.int v) =
        some (h', if Item.int v ∈ h.items then some (Item.int v) else none) ∧
      bst h' = true ∧ allInt h' = true ∧
      (∀ x, x ∈ h'.items ↔ x = Item.int v ∨ x ∈ h.items) ∧
      h'.items.length = h.items.length +
        (if Item.int v ∈ h.items then 0 else 1) := by
  intro h
  induction h with
  | nil =>
    intro _ _
    refine ⟨newNode (Item.int v), ?_, ?_, ?_, ?_, ?_⟩
    · simp [replaceOrInsert, Node.items]
    · simp [newNode, bst, Node.items]
    · simp [newNode, allInt, Node.items, Item.isInt]
    · intro x; simp [newNode, Node.items]
    · simp [newNode, Node.items]
  | node i l r b n ihl ihr =>
    intro hb hi
    have hbn := hb
    rw [bst_node] at hbn
    have hin := hi
    rw [allInt_node] at hin
    obtain ⟨w, rfl⟩ := isInt_int hin.1
    have hmem_iff : (Item.int v ∈ (Node.node (Item.int w) l r b n).items) ↔
        (v < w ∧ Item.int v ∈ l.items) ∨ v = w ∨
          (w < v ∧ Item.int v ∈ r.items) := by
      simp only [Node.items, List.mem_append, List.mem_cons]
      constructor
      · rintro (hm | hm | hm)
        · exact Or.inl ⟨by simpa using hbn.2.2.1 _ hm, hm⟩
        · exact Or.inr (Or.inl (by simpa using hm))
        · exact Or.inr (Or.inr ⟨by simpa using hbn.2.2.2 _ hm, hm⟩)
      · rintro (⟨_, hm⟩ | hm | ⟨_, hm⟩)
        · exact Or.inl hm
        · exact Or.inr (Or.inl (by simp [hm]))
        · exact Or.inr (Or.inr hm)
    by_cases hlt : v < w
    · -- descend left
      obtain ⟨l', el, bl', il', meml, lenl⟩ := ihl hbn.1 hin.2.1
      obtain ⟨h'', ew, iw, bw⟩ :=
        walkUpRot23_spec (i := Item.int w) (l := l') (r := r) (b := b) (n := n)
      have hbmid : bst (Node.node (Item.int w) l' r b n) = true := by
        rw [bst_node]
        refine ⟨bl', hbn.2.1, ?_, hbn.2.2.2⟩
        intro x hx
        rcases (meml x).mp hx with hx' | hx'
        · subst hx'; simp [hlt]
        · exact hbn.2.2.1 _ hx'
      have hmemt : (Item.int v ∈ (Node.node (Item.int w) l r b n).items) =
          (Item.int v ∈ l.items) := by
        simp only [eq_iff_iff, hmem_iff]
        constructor
        · rintro (⟨_, hm⟩ | hm | ⟨hgt, _⟩)
          · exact hm
          · omega
          · omega
        · intro hm; exact Or.inl ⟨hlt, hm⟩
      refine ⟨h'', ?_, bw hbmid, ?_, ?_, ?_⟩
      · rw [replaceOrInsert.eq_def]
        simp only [less_int_int, decide_eq_true_eq, if_pos hlt, el, ew, hmemt]
      · rw [allInt_congr iw]
        rw [allInt_node]
        exact ⟨by simp [Item.isInt], il', hin.2.2⟩
      · intro x
        rw [iw]
        simp only [Node.items, List.mem_append, List.mem_cons, meml x]
        tauto
      · rw [iw]
        simp only [hmemt]
        simp only [Node.items, List.length_append, List.length_cons, lenl]
        omega
    · by_cases hgt : w < v
      · -- descend right
        obtain ⟨r', er, br', ir', memr, lenr⟩ := ihr hbn.2.1 hin.2.2
        obtain ⟨h'', ew, iw, bw⟩ :=
          walkUpRot23_spec (i := Item.int w) (l := l) (r := r') (b := b) (n := n)
        have hbmid : bst (Node.node (Item.int w) l r' b n) = true := by
          rw [bst_node]
          refine ⟨hbn.1, br', hbn.2.2.1, ?_⟩
          intro x hx
          rcases (memr x).mp hx with hx' | hx'
          · subst hx'; simp [hgt]
          · exact hbn.2.2.2 _ hx'
        have hmemt : (Item.int v ∈ (Node.node (Item.int w) l r b n).items) =
            (Item.int v ∈ r.items) := by
          simp only [eq_iff_iff, hmem_iff]
          constructor
          · rintro (⟨_, hm⟩ | hm | ⟨_, hm⟩)
            · omega
            · omega
            · exact hm
          · intro hm; exact Or.inr (Or.inr ⟨hgt, hm⟩)
        refine ⟨h'', ?_, bw hbmid, ?_, ?_, ?_⟩
        · rw [replaceOrInsert.eq_def]
          simp only [less_int_int, decide_eq_true_eq, if_neg hlt, if_pos hgt,
            er, ew, hmemt]
        · rw [allInt_congr iw]
          rw [allInt_node]
          exact ⟨by simp [Item.isInt], hin.2.1, ir'⟩
        · intro x
          rw [iw]
          simp only [Node.items, List.mem_append, List.mem_cons, memr x]
          tauto
        · rw [iw]
          simp only [hmemt]
          simp only [Node.items, List.length_append, List.length_cons, lenr]
          omega
      · -- equal order: v = w
        have hveq : v = w := by omega
        subst hveq
        obtain ⟨h'', ew, iw, bw⟩ :=
          walkUpRot23_spec (i := Item.int v) (l := l) (r := r) (b := b) (n := n)
        have hbmid : bst (Node.node (Item.int v) l r b n) = true := by
          rw [bst_node]
          exact hbn
        have hmemt : Item.int v ∈ (Node.node (Item.int v) l r b n).items := by
          simp [Node.items]
        refine ⟨h'', ?_, bw hbmid, ?_, ?_, ?_⟩
        · rw [replaceOrInsert.eq_def]
          simp only [less_int_int, decide_eq_true_eq, if_neg hlt,
            if_neg (by omega : ¬ v < v), ew, if_pos hmemt]
        · rw [allInt_congr iw]
          exact hi
        · intro x
          rw [iw]
          simp only [Node.items, List.mem_append, List.mem_cons]
          tauto
        · rw [iw, if_pos hmemt]
          simp [Node.items]

/-! Tree-level specification of `ReplaceOrInsert` and the invariant
of iterated insertion. -/

theorem ReplaceOrInsert_spec {t : LLRB} {v : Int} (hb : bst t.root = true)
    (hi : allInt t.root = true) :
    ∃ t', t.ReplaceOrInsert (some (Item.int v)) =
        (t', some (if Item.int v ∈ t.root.items then some (Item.int v)
          else none)) ∧
      bst t'.root = true ∧ allInt t'.root = true ∧
      (∀ x, x ∈ t'.root.items ↔ x = Item.int v ∨ x ∈ t.root.items) ∧
      t'.count = t.count +
        (if Item.int v ∈ t.root.items then 0 else 1) := by
  obtain ⟨h', e, hb', hi', hm', _⟩ :=
    replaceOrInsert_spec (v := v) hb hi
  refine ⟨⟨if (if Item.int v ∈ t.root.items then some (Item.int v)
      else none) = none then t.count + 1 else t.count, h'.setBlack⟩,
    ?_, ?_, ?_, ?_, ?_⟩
  · simp only [LLRB.ReplaceOrInsert, e]
  · rw [setBlack_bst]; exact hb'
  · rw [allInt_congr (setBlack_items h')]; exact hi'
  · intro x; rw [setBlack_items h']; exact hm' x
  · by_cases hmem : Item.int v ∈ t.root.items
    · simp [hmem]
    · simp [hmem]

theorem roiList_inv : ∀ (vs : List Int) (t : LLRB) (S : Finset Int),
    bst t.root = true → allInt t.root = true →
    (∀ k, Item.int k ∈ t.root.items ↔ k ∈ S) →
    t.count = (S.card : Int) →
    bst (vs.foldl (fun t v => (t.ReplaceOrInsert (some (.int v))).1) t).root
        = true ∧
    allInt (vs.foldl (fun t v => (t.ReplaceOrInsert (some (.int v))).1) t).root
        = true ∧
    (∀ k, Item.int k ∈
        (vs.foldl (fun t v => (t.ReplaceOrInsert (some (.int v))).1) t).root.items
        ↔ k ∈ S ∪ vs.toFinset) ∧
    (vs.foldl (fun t v => (t.ReplaceOrInsert (some (.int v))).1) t).count
        = ((S ∪ vs.toFinset).card : Int) := by
  intro vs
  induction vs with
  | nil =>
    intro t S hb hi hm hc
    simpa using ⟨hb, hi, hm, hc⟩
  | cons v vs ih =>
    intro t S hb hi hm hc
    obtain ⟨t', e, hb', hi', hm', hc'⟩ := ReplaceOrInsert_spec (v := v) hb hi
    have hstep : (t.ReplaceOrInsert (some (.int v))).1 = t' := by
      rw [e]
    simp only [List.foldl_cons, hstep]
    have hmem' : ∀ k, Item.int k ∈ t'.root.items ↔ k ∈ insert v S := by
      intro k
      rw [hm' (Item.int k)]
      simp only [Finset.mem_insert, Item.int.injEq, hm k]
    have hcount' : t'.count = ((insert v S).card : Int) := by
      rw [hc']
      by_cases hv : v ∈ S
      · rw [if_pos ((hm v).mpr hv), Finset.card_insert_of_mem hv]
        omega
      · rw [if_neg (fun hx => hv ((hm v).mp hx)),
          Finset.card_insert_of_not_mem hv]
        push_cast
        omega
    have := ih t' (insert v S) hb' hi' hmem' hcount'
    have hset : insert v S ∪ vs.toFinset = S ∪ (v :: vs).toFinset := by
      simp only [List.toFinset_cons]
      ext x
      simp only [Finset.mem_union, Finset.mem_insert]
      tauto
    rw [hset] at this
    exact this

/-! Rank computation: helper lemmas about `getPath`, `pairSum`, and
`getRankOf` on a present key. -/

theorem countP_lt_length {p : Item → Bool} {xs : List Item} {a : Item}
    (ha : a ∈ xs) (hpa : p a = false) : xs.countP p < xs.length := by
  induction xs with
  | nil => simp at ha
  | cons x xs ih =>
    rcases List.mem_cons.mp ha with rfl | ha
    · simp [List.countP_cons, hpa]
      have := List.countP_le_length (l := xs) (p := p)
      omega
    · have := ih ha
      simp [List.countP_cons]
      split <;> omega

theorem countLess_node {i : Item} {l r : Node} {b : Bool} {n : Int} {v : Int} :
    countLess (.node i l r b n) v =
      countLess l v + (if less i (Item.int v) = true then 1 else 0) +
        countLess r v := by
  simp [countLess, Node.items, List.countP_append, List.countP_cons]
  split <;> omega

theorem getPath_head (t : Node) (k : Item) : (getPath t k).head? = some t := by
  cases t with
  | nil => simp [getPath]
  | node i l r b n =>
    simp only [getPath]
    split
    · simp
    · split
      · simp
      · simp

theorem getPath_ne_nil (t : Node) (k : Item) : getPath t k ≠ [] := by
  cases t with
  | nil => simp [getPath]
  | node i l r b n =>
    simp only [getPath]
    split
    · simp
    · split
      · simp
      · simp

theorem getLast?_cons_of_ne_nil {α : Type} {a : α} {l : List α}
    (h : l ≠ []) : (a :: l).getLast? = l.getLast? := by
  cases l with
  | nil => exact absurd rfl h
  | cons b l => exact List.getLast?_cons_cons

theorem getPath_last_present {v : Int} : ∀ {t : Node}, bst t = true →
    allInt t = true → Item.int v ∈ t.items →
    ∃ l' r' b' n', (getPath t (Item.int v)).getLast? =
      some (.node (Item.int v) l' r' b' n') := by
  intro t
  induction t with
  | nil => intro _ _ hmem; simp [Node.items] at hmem
  | node i l r b n ihl ihr =>
    intro hb hi hmem
    rw [bst_node] at hb
    rw [allInt_node] at hi
    obtain ⟨w, rfl⟩ := isInt_int hi.1
    simp only [Node.items, List.mem_append, List.mem_cons] at hmem
    rcases hmem with hm | hm | hm
    · have hlt : v < w := by simpa using hb.2.2.1 _ hm
      obtain ⟨l', r', b', n', e⟩ := ihl hb.1 hi.2.1 hm
      refine ⟨l', r', b', n', ?_⟩
      rw [getPath.eq_def]
      simp only [less_int_int, decide_eq_true_eq, if_pos hlt]
      rw [getLast?_cons_of_ne_nil (getPath_ne_nil l _), e]
    · have hveq : v = w := by simpa using hm
      subst hveq
      refine ⟨l, r, b, n, ?_⟩
      rw [getPath.eq_def]
      simp
    · have hgt : w < v := by simpa using hb.2.2.2 _ hm
      obtain ⟨l', r', b', n', e⟩ := ihr hb.2.1 hi.2.2 hm
      refine ⟨l', r', b', n', ?_⟩
      rw [getPath.eq_def]
      simp only [less_int_int, decide_eq_true_eq]
      rw [if_neg (by omega), if_pos (by simpa using hgt)]
      rw [getLast?_cons_of_ne_nil (getPath_ne_nil r _), e]

theorem getRankOf_cons {h q : Node} {p : List Node} (hhead : p.head? = some q)
    {f : Node} (hlastf : p.getLast? = some f) (hfne : f ≠ Node.nil) :
    getRankOf (h :: p) =
      ((getRankOf p).1 + (if q = Node.nil then 0 else if h = Node.nil then 0
        else if q = h.Right then size h.Left + 1 else 0),
       (getRankOf p).2) := by
  obtain ⟨p', rfl⟩ : ∃ p', p = q :: p' := by
    cases p with
    | nil => simp at hhead
    | cons a l =>
      have ha : a = q := by simpa using hhead
      exact ⟨l, by rw [ha]⟩
  have hlast2 : (h :: q :: p').getLast? = some f := by
    rw [List.getLast?_cons_cons]
    exact hlastf
  have hps : pairSum (h :: q :: p') =
      (if q = Node.nil then 0 else if h = Node.nil then 0
        else if q = h.Right then size h.Left + 1 else 0) +
        pairSum (q :: p') := rfl
  simp only [getRankOf]
  simp only [hlast2, hlastf]
  rw [if_neg hfne, if_neg hfne]
  simp only [hps]
  exact Prod.ext (by ring) rfl

theorem node_ne_nil_of_mem {t : Node} {x : Item} (hx : x ∈ t.items) :
    t ≠ .nil := by
  cases t with
  | nil => simp [Node.items] at hx
  | node i l r b n => simp

theorem sizeOk_node {i : Item} {l r : Node} {b : Bool} {n : Int} :
    sizeOk (.node i l r b n) = true ↔
      n = size l + size r + 1 ∧ sizeOk l = true ∧ sizeOk r = true := by
  simp [sizeOk]
  tauto

theorem size_eq_items_length {t : Node} (h : sizeOk t = true) :
    size t = (t.items.length : Int) := by
  rw [sizeOk_size_eq t h, items_length_realSize]

theorem countLess_eq_zero_of_gt {t : Node} {w v : Int} (hi : allInt t = true)
    (hgt : ∀ x ∈ t.items, less (Item.int w) x = true) (hwv : v ≤ w) :
    countLess t v = 0 := by
  apply List.countP_eq_zero.mpr
  intro x hx
  obtain ⟨u, rfl⟩ := isInt_int (List.all_eq_true.mp hi x hx)
  have := hgt _ hx
  simp at this ⊢
  omega

theorem countLess_eq_length_of_lt {t : Node} {w v : Int} (hi : allInt t = true)
    (hlt : ∀ x ∈ t.items, less x (Item.int w) = true) (hwv : w ≤ v) :
    countLess t v = t.items.length := by
  apply List.countP_eq_length.mpr
  intro x hx
  obtain ⟨u, rfl⟩ := isInt_int (List.all_eq_true.mp hi x hx)
  have := hlt _ hx
  simp at this ⊢
  omega

theorem getRankOf_present {v : Int} : ∀ {t : Node}, bst t = true →
    allInt t = true → sizeOk t = true → Item.int v ∈ t.items →
    getRankOf (getPath t (Item.int v)) =
      ((countLess t v : Int) + 1, some (Item.int v)) := by
  intro t
  induction t with
  | nil => intro _ _ _ hmem; simp [Node.items] at hmem
  | node i l r b n ihl ihr =>
    intro hb hi hs hmem
    have hbk := hb; rw [bst_node] at hbk
    have hik := hi; rw [allInt_node] at hik
    obtain ⟨w, rfl⟩ := isInt_int hik.1
    rw [sizeOk_node] at hs
    simp only [Node.items, List.mem_append, List.mem_cons] at hmem
    rcases hmem with hm | hm | hm
    · -- key sits in the left subtree
      have hlt : v < w := by simpa using hbk.2.2.1 _ hm
      have hpath : getPath (Node.node (Item.int w) l r b n) (Item.int v) =
          Node.node (Item.int w) l r b n :: getPath l (Item.int v) := by
        rw [getPath.eq_def]
        simp [hlt]
      obtain ⟨l2, r2, b2, n2, hlast⟩ := getPath_last_present hbk.1 hik.2.1 hm
      have hcons := getRankOf_cons (h := Node.node (Item.int w) l r b n)
        (getPath_head l (Item.int v)) hlast (by simp)
      rw [hpath, hcons, ihl hbk.1 hik.2.1 hs.2.1 hm]
      have hlne : l ≠ Node.nil := node_ne_nil_of_mem hm
      have hlr : ¬ (l = (Node.node (Item.int w) l r b n).Right) := by
        simp only [Node.Right]
        intro heq
        have hvr : Item.int v ∈ r.items := by rw [← heq]; exact hm
        have := hbk.2.2.2 _ hvr
        simp at this
        omega
      rw [if_neg hlne, if_neg (by simp), if_neg hlr]
      have hcr : countLess r v = 0 :=
        countLess_eq_zero_of_gt hik.2.2 hbk.2.2.2 (by omega)
      rw [countLess_node, hcr]
      simp only [less_int_int]
      rw [if_neg (by simp; omega)]
      simp
    · -- key is the root item
      have hveq : v = w := by simpa using hm
      subst hveq
      have hpath : getPath (Node.node (Item.int v) l r b n) (Item.int v) =
          [Node.node (Item.int v) l r b n] := by
        rw [getPath.eq_def]
        simp
      rw [hpath]
      have hcl : countLess l v = l.items.length :=
        countLess_eq_length_of_lt hik.2.1 hbk.2.2.1 (by omega)
      have hcr : countLess r v = 0 :=
        countLess_eq_zero_of_gt hik.2.2 hbk.2.2.2 (by omega)
      have hsl : size l = (l.items.length : Int) := size_eq_items_length hs.2.1
      simp only [getRankOf, List.getLast?_singleton]
      rw [if_neg (by simp)]
      have hpz : pairSum [Node.node (Item.int v) l r b n] = 0 := rfl
      rw [hpz, countLess_node, hcl, hcr]
      simp only [less_int_int, Node.Left, Node.ItemOf]
      rw [if_neg (by simp)]
      rw [hsl]
      refine Prod.ext ?_ rfl
      push_cast
      ring
    · -- key sits in the right subtree
      have hgt : w < v := by simpa using hbk.2.2.2 _ hm
      have hpath : getPath (Node.node (Item.int w) l r b n) (Item.int v) =
          Node.node (Item.int w) l r b n :: getPath r (Item.int v) := by
        rw [getPath.eq_def]
        simp only [less_int_int, decide_eq_true_eq]
        rw [if_neg (by omega), if_pos hgt]
      obtain ⟨l2, r2, b2, n2, hlast⟩ := getPath_last_present hbk.2.1 hik.2.2 hm
      have hcons := getRankOf_cons (h := Node.node (Item.int w) l r b n)
        (getPath_head r (Item.int v)) hlast (by simp)
      rw [hpath, hcons, ihr hbk.2.1 hik.2.2 hs.2.2 hm]
      have hrne : r ≠ Node.nil := node_ne_nil_of_mem hm
      rw [if_neg hrne, if_neg (by simp),
        if_pos (by simp [Node.Right])]
      have hcl : countLess l v = l.items.length :=
        countLess_eq_length_of_lt hik.2.1 hbk.2.2.1 (by omega)
      have hsl : size l = (l.items.length : Int) := size_eq_items_length hs.2.1
      rw [countLess_node, hcl]
      simp only [less_int_int, Node.Left]
      rw [if_pos (by simp [hgt]), hsl]
      refine Prod.ext ?_ rfl
      push_cast
      ring

theorem getByRank_present {v : Int} : ∀ {t : Node}, bst t = true →
    allInt t = true → sizeOk t = true → Item.int v ∈ t.items →
    ∃ l' r' b' n', getByRank t ((countLess t v : Int) + 1) =
      some (.node (Item.int v) l' r' b' n') := by
  intro t
  induction t with
  | nil => intro _ _ _ hmem; simp [Node.items] at hmem
  | node i l r b n ihl ihr =>
    intro hb hi hs hmem
    have hbk := hb; rw [bst_node] at hbk
    have hik := hi; rw [allInt_node] at hik
    obtain ⟨w, rfl⟩ := isInt_int hik.1
    rw [sizeOk_node] at hs
    have hsl : size l = (l.items.length : Int) := size_eq_items_length hs.2.1
    simp only [Node.items, List.mem_append, List.mem_cons] at hmem
    rcases hmem with hm | hm | hm
    · -- v < w : the key and its rank are inside the left subtree
      have hlt : v < w := by simpa using hbk.2.2.1 _ hm
      have hrk : ((countLess (Node.node (Item.int w) l r b n) v : Int) + 1) =
          ((countLess l v : Int) + 1) := by
        rw [countLess_node, countLess_eq_zero_of_gt hik.2.2 hbk.2.2.2 (by omega)]
        rw [if_neg (by simp; omega)]
        push_cast
        ring
      have hlen : countLess l v < l.items.length :=
        countP_lt_length hm (by simp)
      rw [hrk]
      obtain ⟨l2, r2, b2, n2, e⟩ := ihl hbk.1 hik.2.1 hs.2.1 hm
      refine ⟨l2, r2, b2, n2, ?_⟩
      rw [getByRank.eq_def]
      simp only
      rw [if_neg (by rw [hsl]; push_cast; omega),
        if_pos (by rw [hsl]; push_cast; omega),
        if_neg (node_ne_nil_of_mem hm)]
      exact e
    · -- v = w : the root has exactly this rank
      have hveq : v = w := by simpa using hm
      subst hveq
      have hcl : countLess l v = l.items.length :=
        countLess_eq_length_of_lt hik.2.1 hbk.2.2.1 (by omega)
      have hrk : ((countLess (Node.node (Item.int v) l r b n) v : Int) + 1) =
          size l + 1 := by
        rw [countLess_node, hcl,
          countLess_eq_zero_of_gt hik.2.2 hbk.2.2.2 (by omega)]
        rw [if_neg (by simp)]
        rw [hsl]
        push_cast
        ring
      rw [hrk]
      refine ⟨l, r, b, n, ?_⟩
      rw [getByRank.eq_def]
      simp
    · -- w < v : recurse right with the shifted rank
      have hgt : w < v := by simpa using hbk.2.2.2 _ hm
      have hcl : countLess l v = l.items.length :=
        countLess_eq_length_of_lt hik.2.1 hbk.2.2.1 (by omega)
      have hrk : ((countLess (Node.node (Item.int w) l r b n) v : Int) + 1) =
          size l + 1 + ((countLess r v : Int) + 1) := by
        rw [countLess_node, hcl, if_pos (by simp [hgt]), hsl]
        push_cast
        ring
      rw [hrk]
      obtain ⟨l2, r2, b2, n2, e⟩ := ihr hbk.2.1 hik.2.2 hs.2.2 hm
      refine ⟨l2, r2, b2, n2, ?_⟩
      rw [getByRank.eq_def]
      simp only
      have hpos : (0 : Int) < (countLess r v : Int) + 1 := by positivity
      rw [if_neg (by omega), if_neg (by omega),
        if_neg (node_ne_nil_of_mem hm)]
      have harg : size l + 1 + ((countLess r v : Int) + 1) - (size l + 1) =
          (countLess r v : Int) + 1 := by ring
      rw [harg]
      exact e

/-! Deleting an absent key returns the absent marker (the "deleted"
result is `none`) and hence leaves the count unchanged. -/

theorem rotateRight_root {a : Item} {l r : Node} {b : Bool} {n : Int}
    {h' : Node} (e : rotateRight (.node a l r b n) = some h') :
    ∃ i' l' r' b' n', h' = .node i' l' r' b' n' ∧ i' ∈ l.items := by
  cases l with
  | nil => simp [rotateRight] at e
  | node la ll lr lb ln =>
    by_cases hlb : lb
    · simp [rotateRight, hlb] at e
    · simp [rotateRight, hlb] at e
      exact ⟨la, _, _, _, _, e.symm, by simp [Node.items]⟩

theorem delete_absent : ∀ (N : Nat) (h : Node), h.realSize ≤ N →
    bst h = true → allInt h = true → ∀ v : Int, Item.int v ∉ h.items →
    ∀ p : Node × Option Item, delete h (Item.int v) = some p →
    p.2 = none := by
  intro N
  induction N with
  | zero =>
    intro h hsz _ _ v _ p e
    have hnil : h = Node.nil := by
      cases h with
      | nil => rfl
      | node i l r b n => simp [Node.realSize] at hsz
    subst hnil
    rw [delete.eq_def] at e
    simp at e
    rw [← e]
  | succ N ih =>
    intro h hsz hb hi v habs p e
    cases h with
    | nil =>
      rw [delete.eq_def] at e
      simp at e
      rw [← e]
    | node i l r b n =>
      have hbk := hb; rw [bst_node] at hbk
      have hik := hi; rw [allInt_node] at hik
      obtain ⟨w, rfl⟩ := isInt_int hik.1
      have hvw : v ≠ w := by
        intro hveq
        subst hveq
        exact habs (by simp [Node.items])
      rw [delete.eq_def] at e
      simp only [less_int_int] at e
      by_cases hlt : v < w
      · -- descend left
        rw [if_pos (by simpa using hlt)] at e
        by_cases hl : l = Node.nil
        · rw [if_pos hl] at e
          have := Option.some.inj e
          rw [← this]
        · rw [if_neg hl] at e
          -- the moveRedLeft (or identity) step
          split at e
          · exact absurd e (by simp)
          · rename_i h1 hm1
            have hprops : bst h1 = true ∧ allInt h1 = true ∧
                h1.items = (Node.node (Item.int w) l r b n).items ∧
                h1.realSize = (Node.node (Item.int w) l r b n).realSize := by
              split at hm1
              · exact ⟨moveRedLeft_bst hm1 hb,
                  by rw [allInt_congr (moveRedLeft_items hm1)]; exact hi,
                  moveRedLeft_items hm1, moveRedLeft_realSize hm1⟩
              · cases hm1
                exact ⟨hb, hi, rfl, rfl⟩
            split at e
            · exact absurd e (by simp)
            · rename_i l' del hq
              have hdel : del = none := by
                refine ih h1.Left ?_ (bst_Left hprops.1) (allInt_Left hprops.2.1)
                  v ?_ (l', del) hq
                · have h1lt : h1.Left.realSize < h1.realSize :=
                    realSize_Left_lt_of_eq rfl (by
                      intro hnil
                      rw [hnil] at hprops
                      simp [Node.realSize] at hprops)
                  have := hprops.2.2.2
                  simp only [Node.realSize] at this hsz
                  omega
                · intro hmem
                  exact habs (hprops.2.2.1 ▸ items_Left_subset hmem)
              subst hdel
              split at e
              · exact absurd e (by simp)
              · have := Option.some.inj e
                rw [← this]
      · -- the else branch: the key is not smaller than the root
        rw [if_neg (by simpa using hlt)] at e
        have hwv : w < v := by omega
        split at e
        · exact absurd e (by simp)
        · exact absurd e (by simp)
        · rename_i i1 l1 r1 b1 n1 hr1
          have h1props : bst (Node.node i1 l1 r1 b1 n1) = true ∧
              allInt (Node.node i1 l1 r1 b1 n1) = true ∧
              (Node.node i1 l1 r1 b1 n1).items =
                (Node.node (Item.int w) l r b n).items ∧
              (Node.node i1 l1 r1 b1 n1).realSize =
                (Node.node (Item.int w) l r b n).realSize := by
            split at hr1
            · exact ⟨rotateRight_bst hr1 hb,
                by rw [allInt_congr (rotateRight_items hr1)]; exact hi,
                rotateRight_items hr1, rotateRight_realSize hr1⟩
            · cases hr1
              exact ⟨hb, hi, rfl, rfl⟩
          have hw1 : ∃ w1, i1 = Item.int w1 ∧ w1 < v := by
            split at hr1
            · obtain ⟨i', l', r', b', n', heq, hmem⟩ := rotateRight_root hr1
              obtain ⟨hi1, -, -, -, -⟩ := Node.node.inj heq
              obtain ⟨u, rfl⟩ := isInt_int
                (List.all_eq_true.mp hik.2.1 _ hmem)
              have := hbk.2.2.1 _ hmem
              simp at this
              exact ⟨u, hi1, by omega⟩
            · cases hr1
              exact ⟨w, rfl, hwv⟩
          obtain ⟨w1, rfl, hw1v⟩ := hw1
          rw [if_neg (by simp [hw1v] : ¬ ((!less (Item.int w1) (Item.int v) &&
            decide (r1 = Node.nil)) = true))] at e
          split at e
          · exact absurd e (by simp)
          · exact absurd e (by simp)
          · rename_i i2 l2 r2 b2 n2 hm2
            have h2props : bst (Node.node i2 l2 r2 b2 n2) = true ∧
                allInt (Node.node i2 l2 r2 b2 n2) = true ∧
                (Node.node i2 l2 r2 b2 n2).items =
                  (Node.node (Item.int w1) l1 r1 b1 n1).items ∧
                (Node.node i2 l2 r2 b2 n2).realSize =
                  (Node.node (Item.int w1) l1 r1 b1 n1).realSize := by
              split at hm2
              · exact ⟨moveRedRight_bst hm2 h1props.1,
                  by rw [allInt_congr (moveRedRight_items hm2)]
                     exact h1props.2.1,
                  moveRedRight_items hm2, moveRedRight_realSize hm2⟩
              · cases hm2
                exact ⟨h1props.1, h1props.2.1, rfl, rfl⟩
            have hw2 : ∃ w2, i2 = Item.int w2 ∧ w2 < v := by
              split at hm2
              · obtain ⟨i', l', r', b', n', heq, hor⟩ := moveRedRight_root hm2
                obtain ⟨hi2, -, -, -, -⟩ := Node.node.inj heq
                rcases hor with hor | hor
                · exact ⟨w1, by rw [hi2, hor], hw1v⟩
                · have hb1k := h1props.1
                  rw [bst_node] at hb1k
                  have hi1k := h1props.2.1
                  rw [allInt_node] at hi1k
                  obtain ⟨u, hu⟩ := isInt_int
                    (List.all_eq_true.mp hi1k.2.1 _ hor)
                  have hlt1 := hb1k.2.2.1 _ hor
                  rw [hu] at hlt1
                  simp at hlt1
                  refine ⟨u, by rw [hi2, hu], by omega⟩
              · cases hm2
                exact ⟨w1, rfl, hw1v⟩
            obtain ⟨w2, rfl, hw2v⟩ := hw2
            rw [if_neg (by simp [hw2v] :
              ¬ ((!less (Item.int w2) (Item.int v)) = true))] at e
            split at e
            · exact absurd e (by simp)
            · rename_i r' del hd
              have hdel : del = none := by
                have hb2k := h2props.1
                rw [bst_node] at hb2k
                have hi2k := h2props.2.1
                rw [allInt_node] at hi2k
                refine ih r2 ?_ hb2k.2.1 hi2k.2.2 v ?_ (r', del) hd
                · have e2 := h2props.2.2.2
                  have e1 := h1props.2.2.2
                  simp only [Node.realSize] at e2 e1 hsz ⊢
                  omega
                · intro hmem
                  apply habs
                  have hmem2 : Item.int v ∈
                      (Node.node (Item.int w2) l2 r2 b2 n2).items := by
                    simp [Node.items]
                    tauto
                  rw [h2props.2.2.1, h1props.2.2.1] at hmem2
                  exact hmem2
              subst hdel
              split at e
              · exact absurd e (by simp)
              · have := Option.some.inj e
                rw [← this]

/-! State-passing forms of the query operations.  Each mirrors its Go
method; none of those methods contains an assignment statement, so each
returns the tree exactly as it received it. -/

/-- `Len` with the receiver threaded through. -/
def LLRB.LenS (t : LLRB) : Int × LLRB := (t.count, t)

/-- `Get` with the receiver threaded through. -/
def LLRB.GetS (t : LLRB) (key : Item) : Option Item × LLRB :=
  (getNode t.root key, t)

/-- `Has` with the receiver threaded through. -/
def LLRB.HasS (t : LLRB) (key : Item) : Bool × LLRB :=
  ((t.Get key).isSome, t)

/-- `Min` with the receiver threaded through. -/
def LLRB.MinS (t : LLRB) : Option Item × LLRB := (minNode t.root, t)

/-- `Max` with the receiver threaded through. -/
def LLRB.MaxS (t : LLRB) : Option Item × LLRB := (maxNode t.root, t)

/-- `GetByRank` with the receiver threaded through. -/
def LLRB.GetByRankS (t : LLRB) (r : Int) : Option Item × LLRB :=
  (t.GetByRank r, t)

/-- `GetRankOf` with the receiver threaded through. -/
def LLRB.GetRankOfS (t : LLRB) (key : Item) : (Int × Option Item) × LLRB :=
  (t.GetRankOf key, t)

/-! The claims. -/

/-- C1: the size-consistency invariant (`NDescendants = 1 + size(Left)
+ size(Right)` at every node after every public mutating operation)
FAILS on the code: inserting 1 and then 2 with `ReplaceOrInsert`
(which carries a `TODO: correct NDescendants` marker and never updates
sizes along the path) leaves the root's `NDescendants` at 1 although
the tree holds two nodes; the root violates the claimed equation. -/
theorem claim_C1 :
    (roiList [1, 2]).root.realSize = 2 ∧
    size (roiList [1, 2]).root ≠
      size (roiList [1, 2]).root.Left +
        size (roiList [1, 2]).root.Right + 1 ∧
    sizeOk (roiList [1, 2]).root = false := by decide

/-- C2: rotation size bookkeeping FAILS for `rotateRight`: on a
size-consistent node with a red left child, the demoted node's new
`NDescendants` is `size(Right) + size(Left.Right)` without the `+ 1`
for the node itself, so the result is not size-consistent; the
symmetric `rotateLeft` (which has the `+ 1`) is size-consistent on the
mirrored input. -/
theorem claim_C2 :
    (sizeOk (Node.node (Item.int 2)
        (Node.node (Item.int 1) .nil .nil false 1) .nil true 2) = true ∧
      isRed (Node.node (Item.int 2)
        (Node.node (Item.int 1) .nil .nil false 1) .nil true 2).Left = true ∧
      rotateRight (Node.node (Item.int 2)
        (Node.node (Item.int 1) .nil .nil false 1) .nil true 2) =
        some (Node.node (Item.int 1) .nil
          (Node.node (Item.int 2) .nil .nil false 0) true 2) ∧
      sizeOk (Node.node (Item.int 1) .nil
        (Node.node (Item.int 2) .nil .nil false 0) true 2) = false) ∧
    (sizeOk (Node.node (Item.int 1) .nil
        (Node.node (Item.int 2) .nil .nil false 1) true 2) = true ∧
      isRed (Node.node (Item.int 1) .nil
        (Node.node (Item.int 2) .nil .nil false 1) true 2).Right = true ∧
      rotateLeft (Node.node (Item.int 1) .nil
        (Node.node (Item.int 2) .nil .nil false 1) true 2) =
        some (Node.node (Item.int 2)
          (Node.node (Item.int 1) .nil .nil false 1) .nil true 2) ∧
      sizeOk (Node.node (Item.int 2)
        (Node.node (Item.int 1) .nil .nil false 1) .nil true 2) = true) := by
  decide

/-- C3: `ReplaceOrInsert` semantics.  On a tree satisfying the BST
invariant whose items are all real: if an equal-order element is
present it is swapped out and returned and the count is unchanged,
otherwise the item is inserted, the count increments, and the absent
marker (`none`) is returned; consequently, after any sequence of
`ReplaceOrInsert` calls from the empty tree, `Len` is the number of
distinct values inserted and `Has` holds exactly for the inserted
values. -/
theorem claim_C3 :
    (∀ (t : LLRB) (v : Int), bst t.root = true → allInt t.root = true →
      ∃ t', t.ReplaceOrInsert (some (Item.int v)) =
          (t', some (if Item.int v ∈ t.root.items then some (Item.int v)
            else none)) ∧
        t'.count = t.count +
          (if Item.int v ∈ t.root.items then 0 else 1) ∧
        (∀ x, x ∈ t'.root.items ↔ x = Item.int v ∨ x ∈ t.root.items)) ∧
    (∀ vs : List Int,
      (roiList vs).Len = (vs.toFinset.card : Int) ∧
      ∀ k : Int, ((roiList vs).Has (Item.int k) = true ↔ k ∈ vs)) := by
  constructor
  · intro t v hb hi
    obtain ⟨t', e, _, _, hm, hc⟩ := ReplaceOrInsert_spec hb hi
    exact ⟨t', e, hc, hm⟩
  · intro vs
    have hinv := roiList_inv vs New ∅ rfl rfl
      (by intro k; simp [New, Node.items]) (by simp [New])
    obtain ⟨hb', hi', hm', hc'⟩ := hinv
    rw [show (∅ ∪ vs.toFinset) = vs.toFinset from by simp] at hm' hc'
    simp only [roiList, LLRB.Len, LLRB.Has, LLRB.Get]
    constructor
    · exact hc'
    · intro k
      constructor
      · intro hh
        by_contra hk
        have habs : Item.int k ∉
            (vs.foldl (fun t v => (t.ReplaceOrInsert (some (.int v))).1)
              New).root.items := by
          intro hmem
          exact hk (List.mem_toFinset.mp ((hm' k).mp hmem))
        have := getNode_absent hb' hi' habs
        rw [this] at hh
        simp at hh
      · intro hk
        have hmem := (hm' k).mpr (List.mem_toFinset.mpr hk)
        have := getNode_present hb' hi' hmem
        rw [this]
        rfl

/-- Witness for C3 at concrete inputs: inserting 3, 1, 3 yields
length 2 with 1 present, and a single insertion into the empty tree
returns the absent marker and sets the count to 1. -/
theorem claim_C3_witness :
    ((roiList [3, 1, 3]).Len = (([3, 1, 3] : List Int).toFinset.card : Int) ∧
      ((roiList [3, 1, 3]).Has (Item.int 1) = true ↔ (1 : Int) ∈ [3, 1, 3])) ∧
    ∃ t', New.ReplaceOrInsert (some (Item.int 5)) =
        (t', some (if Item.int 5 ∈ New.root.items then some (Item.int 5)
          else none)) ∧
      t'.count = New.count +
        (if Item.int 5 ∈ New.root.items then 0 else 1) ∧
      (∀ x, x ∈ t'.root.items ↔ x = Item.int 5 ∨ x ∈ New.root.items) :=
  ⟨⟨(claim_C3.2 [3, 1, 3]).1, (claim_C3.2 [3, 1, 3]).2 1⟩,
    claim_C3.1 New 5 rfl rfl⟩

/-- C4 as amended: deleting a key of absent order from a BST-ordered
all-real tree returns the absent marker and leaves the count
unchanged (the tree itself may be restructured, see the
counterexample). -/
theorem claim_C4 (t : LLRB) (v : Int) (hb : bst t.root = true)
    (hi : allInt t.root = true) (habs : Item.int v ∉ t.root.items) :
    ∀ t' d, t.Delete (Item.int v) = (t', some d) →
      d = none ∧ t'.count = t.count := by
  intro t' d he
  unfold LLRB.Delete at he
  cases hd : delete t.root (Item.int v) with
  | none =>
    rw [hd] at he
    simp at he
  | some p =>
    obtain ⟨root', deleted⟩ := p
    have hdel : deleted = none :=
      delete_absent t.root.realSize t.root le_rfl hb hi v habs
        (root', deleted) hd
    subst hdel
    simp only [hd] at he
    simp only [Prod.mk.injEq] at he
    obtain ⟨he1, he2⟩ := he
    refine ⟨(Option.some.inj he2).symm, ?_⟩
    rw [← he1]
    simp

unseal delete in
/-- Witness for C4: deleting the absent key 5 from the tree made of
1, 2, 3 returns the absent marker and keeps the count. -/
theorem claim_C4_witness :
    (none : Option Item) = none ∧
    ((insList [1, 2, 3]).Delete (Item.int 5)).1.count =
      (insList [1, 2, 3]).count :=
  claim_C4 (insList [1, 2, 3]) 5 (by decide) (by decide) (by decide)
    ((insList [1, 2, 3]).Delete (Item.int 5)).1 none (by decide)

unseal delete deleteMin in
/-- Counterexample to C4 as stated: deleting the absent key 1 from
the tree built by insert-no-replace of 2,4,...,20 returns the absent
marker and keeps the count, but the tree is NOT structurally
unchanged — even after erasing all `NDescendants` fields the shape or
colors differ (the eager `moveRedLeft`/`fixUp` rebalancing on the
search path rewrites the tree although nothing is removed). -/
theorem claim_C4_counterexample :
    ((insList [2, 4, 6, 8, 10, 12, 14, 16, 18, 20]).Delete
        (Item.int 1)).2 = some none ∧
    ((insList [2, 4, 6, 8, 10, 12, 14, 16, 18, 20]).Delete
        (Item.int 1)).1.count =
      (insList [2, 4, 6, 8, 10, 12, 14, 16, 18, 20]).count ∧
    stripSize ((insList [2, 4, 6, 8, 10, 12, 14, 16, 18, 20]).Delete
        (Item.int 1)).1.root ≠
      stripSize (insList [2, 4, 6, 8, 10, 12, 14, 16, 18, 20]).root := by
  decide

/-- C5: the rank round-trip.  On a tree satisfying the data-model
invariants (BST order, real items, size consistency), for every
stored value `GetRankOf` returns its rank together with the stored
equal-order item, and `GetByRank` at that rank returns the same
item. -/
theorem claim_C5 (t : LLRB) (v : Int) (hb : bst t.root = true)
    (hi : allInt t.root = true) (hs : sizeOk t.root = true)
    (hmem : Item.int v ∈ t.root.items) :
    ∃ r : Int, t.GetRankOf (Item.int v) = (r, some (Item.int v)) ∧
      t.GetByRank r = some (Item.int v) := by
  refine ⟨(countLess t.root v : Int) + 1, ?_, ?_⟩
  · exact getRankOf_present hb hi hs hmem
  · obtain ⟨l', r', b', n', e⟩ := getByRank_present hb hi hs hmem
    simp [LLRB.GetByRank, e, Node.ItemOf]

/-- Witness for C5: the round-trip at value 2 of the tree built from
1, 2, 3. -/
theorem claim_C5_witness :
    ∃ r : Int, (insList [1, 2, 3]).GetRankOf (Item.int 2) =
        (r, some (Item.int 2)) ∧
      (insList [1, 2, 3]).GetByRank r = some (Item.int 2) :=
  claim_C5 (insList [1, 2, 3]) 2 (by decide) (by decide) (by decide)
    (by decide)

/-- C6: `GetRankOf` on an absent key FAILS on the code for some
insertion orders.  The repository's own test order
`16, 2, 20, 10, 8, 14, 6, 4, 12, 18` (TestNDescendants) yields
`GetRankOf(17) = (8, none)` instead of the specified `(9, none)`,
because `rotateRight` corrupts the stored sizes during those inserts
(the built tree is not size-consistent); the ascending order, which
never corrupts sizes, gives the specified `(9, none)`. -/
theorem claim_C6 :
    (insList [16, 2, 20, 10, 8, 14, 6, 4, 12, 18]).GetRankOf
        (Item.int 17) = (8, none) ∧
    sizeOk (insList [16, 2, 20, 10, 8, 14, 6, 4, 12, 18]).root = false ∧
    (insList [2, 4, 6, 8, 10, 12, 14, 16, 18, 20]).GetRankOf
        (Item.int 17) = (9, none) := by
  decide

/-- C7: sentinel ordering — for every real item, the negative
sentinel compares strictly below it and the positive sentinel
strictly above it, in both argument positions of `less`. -/
theorem claim_C7 (v : Int) :
    less Item.ninf (Item.int v) = true ∧
    less (Item.int v) Item.ninf = false ∧
    less (Item.int v) Item.pinf = true ∧
    less Item.pinf (Item.int v) = false := by
  refine ⟨rfl, rfl, rfl, rfl⟩

/-- C8: rotating a non-red link fails (nil dereference for an absent
child, the "rotating a black link" panic for a black one — both are
internal-invariant failures, modelled as `none`) and never returns a
rewritten tree; under the callers' precondition (the link is red) the
rotation always succeeds. -/
theorem claim_C8 (h : Node) :
    (isRed h.Right = false → rotateLeft h = none) ∧
    (isRed h.Right = true → ∃ x, rotateLeft h = some x) ∧
    (isRed h.Left = false → rotateRight h = none) ∧
    (isRed h.Left = true → ∃ x, rotateRight h = some x) := by
  refine ⟨?_, fun hr => rotateLeft_some hr, ?_,
    fun hl => rotateRight_some hl⟩
  · intro hr
    cases h with
    | nil => rfl
    | node i l r b n =>
      cases r with
      | nil => rfl
      | node xi xl xr xb xn =>
        simp [Node.Right, isRed] at hr
        simp [rotateLeft, hr]
  · intro hl
    cases h with
    | nil => rfl
    | node i l r b n =>
      cases l with
      | nil => rfl
      | node xi xl xr xb xn =>
        simp [Node.Left, isRed] at hl
        simp [rotateRight, hl]

/-- Witness for C8: a black right link makes `rotateLeft` fail; a red
right link makes it succeed. -/
theorem claim_C8_witness :
    rotateLeft (Node.node (Item.int 1) .nil
      (Node.node (Item.int 2) .nil .nil true 1) true 2) = none ∧
    ∃ x, rotateLeft (Node.node (Item.int 1) .nil
      (Node.node (Item.int 2) .nil .nil false 1) true 2) = some x :=
  ⟨(claim_C8 (Node.node (Item.int 1) .nil
      (Node.node (Item.int 2) .nil .nil true 1) true 2)).1 (by decide),
    (claim_C8 (Node.node (Item.int 1) .nil
      (Node.node (Item.int 2) .nil .nil false 1) true 2)).2.1 (by decide)⟩

/-- C9: invalid-argument atomicity — inserting a nil item fails
before any mutation (the returned state is the received tree
unchanged, paired with the panic), and `Inf 0` fails. -/
theorem claim_C9 :
    (∀ t : LLRB, t.ReplaceOrInsert none = (t, none)) ∧
    (∀ t : LLRB, t.InsertNoReplace none = (t, none)) ∧
    Inf 0 = none := by
  refine ⟨fun t => rfl, fun t => rfl, rfl⟩

/-- C10: the query operations are read-only — each state-passing
form returns the tree exactly as received, and its result is the pure
function of the tree used elsewhere in this file, for every argument
(also absent keys and out-of-range ranks). -/
theorem claim_C10 (t : LLRB) (key : Item) (r : Int) :
    (t.LenS.2 = t ∧ (t.GetS key).2 = t ∧ (t.HasS key).2 = t ∧
      t.MinS.2 = t ∧ t.MaxS.2 = t ∧ (t.GetByRankS r).2 = t ∧
      (t.GetRankOfS key).2 = t) ∧
    (t.LenS.1 = t.Len ∧ (t.GetS key).1 = t.Get key ∧
      (t.HasS key).1 = t.Has key ∧ t.MinS.1 = t.Min ∧
      t.MaxS.1 = t.Max ∧ (t.GetByRankS r).1 = t.GetByRank r ∧
      (t.GetRankOfS key).1 = t.GetRankOf key) := by
  exact ⟨⟨rfl, rfl, rfl, rfl, rfl, rfl, rfl⟩,
    ⟨rfl, rfl, rfl, rfl, rfl, rfl, rfl⟩⟩

end GoLLRB